import Mathlib

/-!
# Verification of the BLUOM domain crawler

A shallow embedding of `src/crawler.py`: the URL→domain normalizer
(`normalize_domain`), the persisted Index/Frontier collections (Python dicts,
modelled as insertion-ordered association lists), the per-candidate merge
logic, and the budget-bounded crawl loop of `crawl()`.

Python strings are modelled through their character lists (`String.data`);
Python dict operations (`in`, `d[k] = v`, `d[k] += 1`, `del d[k]`) are the
`dget/dmem/dset/dmodify/derase` functions below.  The HTTP fetch + HTML
parse (requests/BeautifulSoup) is the external Fetch/Extract collaborator:
it is a parameter `fetch : String → FetchResult` whose success case carries
the extracted title, description and the page's outbound links already
resolved to absolute URLs (`urljoin` is Python stdlib, applied before
normalization).
-/

namespace Bluom

/-- Python `str.lower()` (character-wise lowercasing). -/
def strLower (s : String) : String := ⟨s.data.map Char.toLower⟩

/-- Python `str.startswith(p)`: `p` is a prefix of `s`. -/
def strStartsWith (s p : String) : Bool := decide (s.data.take p.data.length = p.data)

/-- Python `s[n:]`. -/
def strDrop (s : String) (n : Nat) : String := ⟨s.data.drop n⟩

/-- Python `s[:n]`. -/
def strTake (s : String) (n : Nat) : String := ⟨s.data.take n⟩

/-- Python `c in s` for a single character. -/
def strContains (s : String) (c : Char) : Bool := s.data.contains c

/-- Python `len(s)`. -/
def strLen (s : String) : Nat := s.data.length

/-- Characters allowed in a URL scheme (RFC 3986 / `urllib.parse`). -/
def isSchemeChar (c : Char) : Bool := c.isAlphanum || c == '+' || c == '-' || c == '.'

/-- Drop a leading `scheme:` from a character list if a valid scheme
(letter first, then letters/digits/`+`/`-`/`.`) is present, as
`urllib.parse.urlparse` does. -/
def afterScheme (l : List Char) : List Char :=
  let pre := l.takeWhile isSchemeChar
  match l.drop pre.length with
  | ':' :: r =>
    match pre with
    | c :: _ => if c.isAlpha then r else l
    | [] => l
  | _ => l

/-- A character that may appear in the netloc component: everything up to
the first `/`, `?` or `#`. -/
def isNetlocChar (c : Char) : Bool := !(c == '/' || c == '?' || c == '#')

/-- The netloc (authority) component: present only when, after removing the
scheme, the remainder starts with `//`; it then extends to the next
`/`, `?` or `#`.  Modelled on `urllib.parse.urlparse` (Python stdlib,
an external collaborator of the crawler). -/
def netlocChars (l : List Char) : List Char :=
  match afterScheme l with
  | '/' :: '/' :: rest => rest.takeWhile isNetlocChar
  | _ => []

/-- `urlparse(url).netloc` as a string operation. -/
def urlNetloc (s : String) : String := ⟨netlocChars s.data⟩

/-- The body of `normalize_domain` after `urlparse`: lowercase the netloc,
reject when empty, strip one leading `www.`, reject when the result has no
`.` or fewer than 4 characters, and build `https://{domain}/`. -/
def normalizeNetloc (netloc : String) : Option String :=
  let domain := strLower netloc
  if domain = "" then none
  else
    let domain2 := if strStartsWith domain "www." then strDrop domain 4 else domain
    if (!strContains domain2 '.') || decide (strLen domain2 < 4) then none
    else some ("https://" ++ domain2 ++ "/")

/-- `normalize_domain(url)` from `src/crawler.py` lines 15–30. -/
def normalize_domain (url : String) : Option String := normalizeNetloc (urlNetloc url)

/-- A URL assembled from its components: `scheme://[www.]host{rest}`,
where `rest` is the path/query/fragment part.  This is the input space of
the spec's normalizer property: two URLs "share a host" when they are
built from the same `host` with possibly different scheme, `www.` label,
path, query or fragment. -/
def mkUrl (scheme : String) (www : Bool) (host : String) (rest : String) : String :=
  ⟨scheme.data ++ (':' :: '/' :: '/' :: []) ++
    (if www then ('w' :: 'w' :: 'w' :: '.' :: []) else []) ++ host.data ++ rest.data⟩

/-- A scheme component is well formed: nonempty, starts with a letter,
and uses only scheme characters. -/
def schemeOk (scheme : String) : Bool :=
  match scheme.data with
  | [] => false
  | c :: _ => c.isAlpha && scheme.data.all isSchemeChar

/-- A host component is well formed: none of its characters terminates the
netloc (`/`, `?`, `#`). -/
def hostOk (host : String) : Bool := host.data.all isNetlocChar

/-- A path/query/fragment suffix is well formed: it is empty or begins
with one of the delimiters `/`, `?`, `#` that end the netloc. -/
def restOk (rest : String) : Bool :=
  match rest.data with
  | [] => true
  | c :: _ => !isNetlocChar c

/-- A Python dict with string keys, as an insertion-ordered association
list (Python dicts preserve insertion order; keys are unique in every
state the program builds). -/
abbrev Dict (α : Type) := List (String × α)

/-- Python `d.get(k)` / `d[k]` lookup. -/
def dget {α : Type} : Dict α → String → Option α
  | [], _ => none
  | p :: t, k => if p.1 = k then some p.2 else dget t k

/-- Python `k in d`. -/
def dmem {α : Type} (d : Dict α) (k : String) : Bool := (dget d k).isSome

/-- Python `d[k] = v`: replace the value at an existing key in place,
otherwise append the new binding at the end. -/
def dset {α : Type} (d : Dict α) (k : String) (v : α) : Dict α :=
  if dmem d k then d.map (fun p => if p.1 = k then (k, v) else p) else d ++ [(k, v)]

/-- Python `d[k] = f(d[k])` (e.g. `d[k]['links'] += 1`): update in place. -/
def dmodify {α : Type} (d : Dict α) (k : String) (f : α → α) : Dict α :=
  d.map (fun p => if p.1 = k then (p.1, f p.2) else p)

/-- Python `del d[k]` (guarded by `if k in d` in the source, so absence is
a no-op). -/
def derase {α : Type} (d : Dict α) (k : String) : Dict α :=
  d.filter (fun p => decide (p.1 ≠ k))

/-- One record of `index.json` / `index_map`: lines 116–121 of the source.
`links` is the accumulated inbound-link count (the spec's `authority`). -/
structure IndexEntry where
  url : String
  title : String
  description : String
  links : Nat
deriving DecidableEq

/-- The Index: `index_map`, keyed by normalized domain. -/
abbrev IndexMap := Dict IndexEntry

/-- The Frontier: `queue_data`, normalized domain ↦ link count (the value
dict `{"links": n}` is just its count). -/
abbrev QueueMap := Dict Nat

/-- Outcome of the external Fetch/Extract collaborator for one domain:
failure covers network errors, timeouts, non-200 statuses and parse
failures (lines 90–94 and the `except` at 153); success carries the
extracted title, description, and outbound links as absolute URLs. -/
inductive FetchResult where
  | failure
  | success (title : String) (description : String) (links : List String)
deriving DecidableEq

/-- Whether a fetch outcome is the success case. -/
def isSuccess : FetchResult → Bool
  | .failure => false
  | .success _ _ _ => true

/-- In-memory state of one run: the two collections, the budget counter
`crawled_this_run`, and the trace of domains on which a fetch was
attempted (each `requests.get` call, successful or not). -/
structure CrawlState where
  index : IndexMap
  queue : QueueMap
  crawled : Nat
  fetched : List String
deriving DecidableEq

/-- Merging one outbound link of the page at `self` (lines 128–142):
normalize it; if the target is indexed, bump its authority; else if
queued, bump its authority; else, if not a self-loop, enqueue it with
authority 1. -/
def mergeLink (self : String) (index : IndexMap) (queue : QueueMap) (u : String) :
    IndexMap × QueueMap :=
  match normalize_domain u with
  | none => (index, queue)
  | some t =>
    if dmem index t then
      (dmodify index t (fun e => { e with links := e.links + 1 }), queue)
    else if dmem queue t then
      (index, dmodify queue t (· + 1))
    else if t ≠ self then
      (index, dset queue t 1)
    else
      (index, queue)

/-- Folding `mergeLink` over all outbound links of one page, in order. -/
def mergeLinks (self : String) (p : IndexMap × QueueMap) (links : List String) :
    IndexMap × QueueMap :=
  links.foldl (fun p u => mergeLink self p.1 p.2 u) p

/-- One iteration body of the crawl loop for candidate `c` (lines 81–156):
if already indexed, just drop it from the queue; otherwise attempt the
fetch.  On failure, drop it from the queue.  On success, commit the index
entry with the candidate's current queued link count (`info` aliases the
dict object stored in `queue_data`, so increments made earlier in the run
are visible), merge the outbound links, count the success, and drop the
candidate from the queue. -/
def processCandidate (fetch : String → FetchResult) (st : CrawlState) (c : String) :
    CrawlState :=
  if dmem st.index c then
    { st with queue := derase st.queue c }
  else
    match fetch c with
    | .failure =>
      { st with queue := derase st.queue c, fetched := st.fetched ++ [c] }
    | .success title desc links =>
      let auth := (dget st.queue c).getD 0
      let idx1 := dset st.index c ⟨c, strTake title 100, strTake desc 250, auth⟩
      let p := mergeLinks c (idx1, st.queue) links
      { index := p.1, queue := derase p.2 c,
        crawled := st.crawled + 1, fetched := st.fetched ++ [c] }

/-- The crawl loop over the sorted snapshot (lines 76–156).  The budget
check sits at the top of each iteration (`break` once
`crawled_this_run >= MAX_CRAWL_PER_RUN`); the second component returns
the candidates left unprocessed by that break. -/
def crawlLoop (fetch : String → FetchResult) (maxCrawls : Nat) :
    CrawlState → List String → CrawlState × List String
  | st, [] => (st, [])
  | st, c :: rest =>
    if maxCrawls ≤ st.crawled then (st, c :: rest)
    else crawlLoop fetch maxCrawls (processCandidate fetch st c) rest

/-- Insert into a list sorted by `le` (true when the first argument should
come no later than the second). -/
def insertBy {α : Type} (le : α → α → Bool) (x : α) : List α → List α
  | [] => [x]
  | y :: t => if le x y then x :: y :: t else y :: insertBy le x t

/-- Insertion sort by `le`. -/
def sortBy {α : Type} (le : α → α → Bool) : List α → List α
  | [] => []
  | x :: t => insertBy le x (sortBy le t)

/-- `sorted(queue_data.items(), key=lambda x: x[1]['links'], reverse=True)`
(line 71): the queue snapshot in descending authority order.  The spec
leaves tie order unspecified, so a simple insertion sort stands in for
Python's Timsort. -/
def sortQueue (q : QueueMap) : List (String × Nat) :=
  sortBy (fun a b => b.2 ≤ a.2) q

/-- The fallback seed list (line 60). -/
def initial_seeds : List String :=
  ["https://wikipedia.org", "https://github.com", "https://google.com"]

/-- Seeding loop (lines 61–64): normalize each seed and enqueue it with
authority 1; seeds failing normalization are skipped. -/
def seedQueue (q : QueueMap) (seeds : List String) : QueueMap :=
  seeds.foldl
    (fun q s =>
      match normalize_domain s with
      | some n => dset q n 1
      | none => q) q

/-- The queue the loop starts from (lines 56–64): seeded exactly when both
collections are empty at run start, untouched otherwise. -/
def initQueue (index0 : IndexMap) (queue0 : QueueMap) : QueueMap :=
  if queue0.isEmpty && index0.isEmpty then seedQueue queue0 initial_seeds else queue0

/-- One whole run of `crawl()` from loaded state to the state handed to
persistence: seed if both collections are empty, sort the queue snapshot,
then run the bounded loop from a zero budget counter and an empty fetch
trace. -/
def crawl (fetch : String → FetchResult) (maxCrawls : Nat)
    (index0 : IndexMap) (queue0 : QueueMap) : CrawlState × List String :=
  let q1 := initQueue index0 queue0
  crawlLoop fetch maxCrawls ⟨index0, q1, 0, []⟩ ((sortQueue q1).map Prod.fst)

/-- The authority currently recorded for a key: its Index entry's count
when indexed (membership in the source is always checked on the Index
first), else its Frontier count, else none. -/
def authOf (st : CrawlState) (k : String) : Option Nat :=
  match dget st.index k with
  | some e => some e.links
  | none => dget st.queue k

/-- Mutual exclusion of the two collections, as a decidable check: no key
of the Index is also a key of the Frontier. -/
def disjointKeys (index : IndexMap) (queue : QueueMap) : Bool :=
  index.all (fun p => !(dmem queue p.1))

/-- Number of fetch attempts in a trace that the collaborator answers with
success. -/
def countSuccesses (fetch : String → FetchResult) (l : List String) : Nat :=
  (l.filter (fun c => isSuccess (fetch c))).length

/-- `list(index_map.values())` (line 159): the persisted form of the
Index; JSON serialization itself is external and lossless for these
records. -/
def persistIndex (m : IndexMap) : List IndexEntry := m.map Prod.snd

/-- Line 50: rebuild the Index mapping from the persisted record list,
keyed by `normalize_domain(item['url'])`, dropping entries whose URL
fails normalization. -/
def loadIndexMap (l : List IndexEntry) : IndexMap :=
  l.foldl
    (fun m it =>
      match normalize_domain it.url with
      | some k => dset m k it
      | none => m) []

/-! ## Association-list (Python dict) lemmas -/

theorem dget_none_of {α : Type} {d : Dict α} {k : String} (h : dmem d k = false) :
    dget d k = none := by
  cases hg : dget d k with
  | none => rfl
  | some v => rw [dmem, hg] at h; simp at h

theorem dget_append {α : Type} (d₁ d₂ : Dict α) (k : String) :
    dget (d₁ ++ d₂) k = if dmem d₁ k then dget d₁ k else dget d₂ k := by
  induction d₁ with
  | nil => simp [dget, dmem]
  | cons p t ih =>
    by_cases hp : p.1 = k
    · simp [dget, dmem, hp]
    · simp only [List.cons_append, dget, dmem, hp]
      simpa [dmem, dget, hp] using ih

theorem dget_map_set_ne {α : Type} (d : Dict α) (k : String) (v : α) {k' : String}
    (hk : k' ≠ k) :
    dget (d.map (fun p => if p.1 = k then (k, v) else p)) k' = dget d k' := by
  induction d with
  | nil => simp [dget]
  | cons p t ih =>
    by_cases hp : p.1 = k
    · have h1 : ¬ k = k' := fun h => hk h.symm
      have h2 : ¬ p.1 = k' := by rw [hp]; exact h1
      simp [dget, hp, h1, h2, ih]
    · by_cases hp' : p.1 = k'
      · simp [dget, hp, hp', hk]
      · simpa [dget, hp, hp'] using ih

theorem dget_map_set_self {α : Type} (d : Dict α) (k : String) (v : α)
    (hm : dmem d k = true) :
    dget (d.map (fun p => if p.1 = k then (k, v) else p)) k = some v := by
  induction d with
  | nil => simp [dmem, dget] at hm
  | cons p t ih =>
    by_cases hp : p.1 = k
    · simp [dget, hp]
    · have hm' : dmem t k = true := by simpa [dmem, dget, hp] using hm
      simpa [dget, hp] using ih hm'

theorem dget_dset {α : Type} (d : Dict α) (k : String) (v : α) (k' : String) :
    dget (dset d k v) k' = if k' = k then some v else dget d k' := by
  unfold dset
  by_cases hm : dmem d k
  · by_cases hk : k' = k
    · subst hk
      simp only [hm, if_true, if_pos rfl]
      exact dget_map_set_self d k' v hm
    · simp only [hm, if_true, if_neg hk]
      exact dget_map_set_ne d k v hk
  · have hb : dmem d k = false := by simpa using hm
    have hn : dget d k = none := dget_none_of hb
    by_cases hk : k' = k
    · subst hk
      simp [hb, dget_append, hm, hn, dget]
    · have h1 : ¬ k = k' := fun h => hk h.symm
      by_cases hm' : dmem d k'
      · simp [hb, dget_append, hk, hm']
      · have hg : dget d k' = none := dget_none_of (by simpa using hm')
        simp [hb, dget_append, hk, hm', hg, dget, h1]

theorem dget_dmodify {α : Type} (d : Dict α) (k : String) (f : α → α) (k' : String) :
    dget (dmodify d k f) k' = if k' = k then (dget d k).map f else dget d k' := by
  induction d with
  | nil => simp [dmodify, dget]
  | cons p t ih =>
    simp only [dmodify, List.map_cons] at ih ⊢
    by_cases hp : p.1 = k
    · by_cases hk : k' = k
      · subst hk
        simp [dget, hp]
      · have h1 : ¬ k = k' := fun h => hk h.symm
        have h2 : ¬ p.1 = k' := by rw [hp]; exact h1
        simp [dget, hp, h2, ih, hk, h1]
    · by_cases hp' : p.1 = k'
      · have hk : ¬ k' = k := by rw [← hp']; exact hp
        simp [dget, hp, hp', hk]
      · simp [dget, hp, hp', ih]

theorem dget_derase {α : Type} (d : Dict α) (k : String) (k' : String) :
    dget (derase d k) k' = if k' = k then none else dget d k' := by
  induction d with
  | nil => simp [derase, dget]
  | cons p t ih =>
    simp only [derase, List.filter_cons] at ih ⊢
    by_cases hp : p.1 = k
    · by_cases hk : k' = k
      · simpa [hp, hk] using ih
      · have h1 : ¬ k = k' := fun h => hk h.symm
        have h2 : ¬ p.1 = k' := by rw [hp]; exact h1
        simpa [hp, hk, h1, h2, dget] using ih
    · by_cases hp' : p.1 = k'
      · have hk : ¬ k' = k := by rw [← hp']; exact hp
        simp [hp, hp', hk, dget]
      · simpa [hp, hp', dget] using ih

theorem dmem_dset {α : Type} (d : Dict α) (k : String) (v : α) (k' : String) :
    dmem (dset d k v) k' = (decide (k' = k) || dmem d k') := by
  by_cases hk : k' = k <;> simp [dmem, dget_dset, hk]

theorem dmem_dmodify {α : Type} (d : Dict α) (k : String) (f : α → α) (k' : String) :
    dmem (dmodify d k f) k' = dmem d k' := by
  by_cases hk : k' = k <;> simp [dmem, dget_dmodify, hk]

theorem dmem_derase {α : Type} (d : Dict α) (k : String) (k' : String) :
    dmem (derase d k) k' = (!decide (k' = k) && dmem d k') := by
  by_cases hk : k' = k <;> simp [dmem, dget_derase, hk]

theorem dmem_iff_mem_keys {α : Type} (d : Dict α) (k : String) :
    dmem d k = true ↔ k ∈ d.map Prod.fst := by
  induction d with
  | nil => simp [dmem, dget]
  | cons p t ih =>
    by_cases hp : p.1 = k
    · simp [dmem, dget, hp]
    · have h1 : ¬ k = p.1 := fun h => hp h.symm
      simp [dmem, dget, hp, h1] at ih ⊢
      exact ih

theorem insertBy_perm {α : Type} (le : α → α → Bool) (x : α) (l : List α) :
    (insertBy le x l).Perm (x :: l) := by
  induction l with
  | nil => simp [insertBy]
  | cons y t ih =>
    by_cases h : le x y
    · simp [insertBy, h]
    · simp only [insertBy, h, if_false]
      exact (ih.cons y).trans (List.Perm.swap x y t)

theorem sortBy_perm {α : Type} (le : α → α → Bool) (l : List α) :
    (sortBy le l).Perm l := by
  induction l with
  | nil => simp [sortBy]
  | cons x t ih => exact (insertBy_perm le x (sortBy le t)).trans (ih.cons x)

theorem not_mem_sortQueue_keys {q : QueueMap} {k : String} (h : dmem q k = false) :
    k ∉ (sortQueue q).map Prod.fst := by
  intro hk
  have hperm : ((sortQueue q).map Prod.fst).Perm (q.map Prod.fst) :=
    (sortBy_perm _ q).map Prod.fst
  have hmem : k ∈ q.map Prod.fst := hperm.mem_iff.mp hk
  rw [← dmem_iff_mem_keys] at hmem
  rw [hmem] at h
  exact Bool.true_eq_false.mp h

/-! ## Merge-step lemmas -/

theorem mergeLink_index_mem (self : String) (idx : IndexMap) (q : QueueMap)
    (u : String) (k : String) :
    dmem (mergeLink self idx q u).1 k = dmem idx k := by
  unfold mergeLink
  cases hn : normalize_domain u with
  | none => rfl
  | some t =>
    by_cases h1 : dmem idx t
    · simp [h1, dmem_dmodify]
    · by_cases h2 : dmem q t
      · simp [h1, h2]
      · by_cases h3 : t = self
        · subst h3
          simp [h1, h2]
        · simp [h1, h2, h3]

theorem mergeLink_index_mono (self : String) (idx : IndexMap) (q : QueueMap)
    (u : String) (k : String) (e : IndexEntry) (h : dget idx k = some e) :
    ∃ e', dget (mergeLink self idx q u).1 k = some e' ∧ e.links ≤ e'.links := by
  unfold mergeLink
  cases hn : normalize_domain u with
  | none => exact ⟨e, h, le_rfl⟩
  | some t =>
    by_cases h1 : dmem idx t
    · by_cases hk : k = t
      · subst hk
        refine ⟨{ e with links := e.links + 1 }, ?_, by simp⟩
        simp [h1, dget_dmodify, h]
      · exact ⟨e, by simp [h1, dget_dmodify, hk, h], le_rfl⟩
    · by_cases h2 : dmem q t
      · exact ⟨e, by simp [h1, h2, h], le_rfl⟩
      · by_cases h3 : t = self
        · subst h3
          exact ⟨e, by simp [h1, h2, h], le_rfl⟩
        · exact ⟨e, by simp [h1, h2, h3, h], le_rfl⟩

theorem mergeLink_queue_mono (self : String) (idx : IndexMap) (q : QueueMap)
    (u : String) (k : String) (n : Nat) (h : dget q k = some n) :
    ∃ m, dget (mergeLink self idx q u).2 k = some m ∧ n ≤ m := by
  unfold mergeLink
  cases hn : normalize_domain u with
  | none => exact ⟨n, h, le_rfl⟩
  | some t =>
    by_cases h1 : dmem idx t
    · exact ⟨n, by simp [h1, h], le_rfl⟩
    · by_cases h2 : dmem q t
      · by_cases hk : k = t
        · subst hk
          exact ⟨n + 1, by simp [h1, h2, dget_dmodify, h], by omega⟩
        · exact ⟨n, by simp [h1, h2, dget_dmodify, hk, h], le_rfl⟩
      · have hk : ¬ k = t := by
          intro hkt
          subst hkt
          rw [dmem, h] at h2
          simp at h2
        by_cases h3 : t = self
        · subst h3
          exact ⟨n, by simp [h1, h2, h], le_rfl⟩
        · exact ⟨n, by simp [h1, h2, h3, dget_dset, hk, h], le_rfl⟩

theorem mergeLink_queue_mem_mono (self : String) (idx : IndexMap) (q : QueueMap)
    (u : String) (k : String) (h : dmem q k = true) :
    dmem (mergeLink self idx q u).2 k = true := by
  rw [dmem, Option.isSome_iff_exists] at h
  obtain ⟨n, hn⟩ := h
  obtain ⟨m, hm, _⟩ := mergeLink_queue_mono self idx q u k n hn
  rw [dmem, hm]
  rfl

theorem mergeLink_queue_mem_of {self : String} {idx : IndexMap} {q : QueueMap}
    {u : String} {k : String}
    (h : dmem (mergeLink self idx q u).2 k = true) :
    dmem q k = true ∨ (dmem idx k = false ∧ k ≠ self) := by
  unfold mergeLink at h
  cases hn : normalize_domain u with
  | none => rw [hn] at h; exact Or.inl h
  | some t =>
    rw [hn] at h
    by_cases h1 : dmem idx t
    · simp [h1] at h
      exact Or.inl h
    · by_cases h2 : dmem q t
      · simp [h1, h2, dmem_dmodify] at h
        exact Or.inl h
      · by_cases h3 : t = self
        · subst h3
          simp [h1, h2] at h
          exact Or.inl h
        · simp [h1, h2, h3, dmem_dset] at h
          rcases h with hk | hq
          · subst hk
            exact Or.inr ⟨by simpa using h1, h3⟩
          · exact Or.inl hq

/-! ## Folded merge lemmas (all outbound links of one page) -/

theorem mergeLinks_index_mem (self : String) (links : List String)
    (p : IndexMap × QueueMap) (k : String) :
    dmem (mergeLinks self p links).1 k = dmem p.1 k := by
  induction links generalizing p with
  | nil => rfl
  | cons u rest ih =>
    show dmem (mergeLinks self (mergeLink self p.1 p.2 u) rest).1 k = _
    rw [ih, mergeLink_index_mem]

theorem mergeLinks_index_mono (self : String) (links : List String)
    (p : IndexMap × QueueMap) (k : String) (e : IndexEntry)
    (h : dget p.1 k = some e) :
    ∃ e', dget (mergeLinks self p links).1 k = some e' ∧ e.links ≤ e'.links := by
  induction links generalizing p e with
  | nil => exact ⟨e, h, le_rfl⟩
  | cons u rest ih =>
    obtain ⟨e₁, he₁, hle₁⟩ := mergeLink_index_mono self p.1 p.2 u k e h
    obtain ⟨e₂, he₂, hle₂⟩ := ih (mergeLink self p.1 p.2 u) e₁ he₁
    exact ⟨e₂, he₂, le_trans hle₁ hle₂⟩

theorem mergeLinks_queue_mono (self : String) (links : List String)
    (p : IndexMap × QueueMap) (k : String) (n : Nat)
    (h : dget p.2 k = some n) :
    ∃ m, dget (mergeLinks self p links).2 k = some m ∧ n ≤ m := by
  induction links generalizing p n with
  | nil => exact ⟨n, h, le_rfl⟩
  | cons u rest ih =>
    obtain ⟨n₁, hn₁, hle₁⟩ := mergeLink_queue_mono self p.1 p.2 u k n h
    obtain ⟨n₂, hn₂, hle₂⟩ := ih (mergeLink self p.1 p.2 u) n₁ hn₁
    exact ⟨n₂, hn₂, le_trans hle₁ hle₂⟩

theorem mergeLinks_queue_mem_mono (self : String) (links : List String)
    (p : IndexMap × QueueMap) (k : String) (h : dmem p.2 k = true) :
    dmem (mergeLinks self p links).2 k = true := by
  rw [dmem, Option.isSome_iff_exists] at h
  obtain ⟨n, hn⟩ := h
  obtain ⟨m, hm, _⟩ := mergeLinks_queue_mono self links p k n hn
  rw [dmem, hm]
  rfl

theorem mergeLinks_queue_mem_of (self : String) (links : List String)
    (p : IndexMap × QueueMap) (k : String)
    (h : dmem (mergeLinks self p links).2 k = true) :
    dmem p.2 k = true ∨ (dmem p.1 k = false ∧ k ≠ self) := by
  induction links generalizing p with
  | nil => exact Or.inl h
  | cons u rest ih =>
    have h' := ih (mergeLink self p.1 p.2 u) h
    rcases h' with hq | ⟨hi, hs⟩
    · exact mergeLink_queue_mem_of hq
    · rw [mergeLink_index_mem] at hi
      exact Or.inr ⟨hi, hs⟩

/-! ## Per-candidate processing lemmas -/

theorem disjointKeys_eq_true_iff (idx : IndexMap) (q : QueueMap) :
    disjointKeys idx q = true ↔ ∀ k, dmem idx k = true → dmem q k = false := by
  unfold disjointKeys
  rw [List.all_eq_true]
  constructor
  · intro h k hk
    rw [dmem_iff_mem_keys] at hk
    rcases List.mem_map.mp hk with ⟨p, hp, hpk⟩
    have := h p hp
    rw [← hpk]
    simpa using this
  · intro h p hp
    have : dmem idx p.1 = true :=
      (dmem_iff_mem_keys idx p.1).mpr (List.mem_map.mpr ⟨p, hp, rfl⟩)
    simpa using h p.1 this

theorem processCandidate_budget (fetch : String → FetchResult) (st : CrawlState)
    (c : String) :
    (dmem st.index c = true ∧ (processCandidate fetch st c).crawled = st.crawled ∧
      (processCandidate fetch st c).fetched = st.fetched) ∨
    (dmem st.index c = false ∧
      (processCandidate fetch st c).fetched = st.fetched ++ [c] ∧
      (processCandidate fetch st c).crawled =
        st.crawled + (if isSuccess (fetch c) then 1 else 0)) := by
  unfold processCandidate
  by_cases h : dmem st.index c
  · exact Or.inl ⟨h, by simp [h], by simp [h]⟩
  · refine Or.inr ⟨by simpa using h, ?_, ?_⟩ <;>
      cases hf : fetch c <;> simp [h, hf, isSuccess]

theorem processCandidate_index_mem_ne (fetch : String → FetchResult)
    (st : CrawlState) {c k : String} (hk : k ≠ c) :
    dmem (processCandidate fetch st c).index k = dmem st.index k := by
  unfold processCandidate
  by_cases h : dmem st.index c
  · simp [h]
  · cases hf : fetch c with
    | failure => simp [h, hf]
    | success title desc links =>
      simp only [h, hf, Bool.false_eq_true, if_false]
      rw [mergeLinks_index_mem, dmem_dset]
      simp [hk]

theorem processCandidate_queue_persist (fetch : String → FetchResult)
    (st : CrawlState) {c k : String} (hk : k ≠ c)
    (hq : dmem st.queue k = true) :
    dmem (processCandidate fetch st c).queue k = true := by
  unfold processCandidate
  by_cases h : dmem st.index c
  · simp [h, dmem_derase, hk, hq]
  · cases hf : fetch c with
    | failure => simp [h, hf, dmem_derase, hk, hq]
    | success title desc links =>
      simp only [h, hf, Bool.false_eq_true, if_false]
      rw [dmem_derase]
      simp only [hk, decide_False, Bool.not_false, Bool.true_and]
      exact mergeLinks_queue_mem_mono _ _ _ _ hq

theorem processCandidate_disjoint (fetch : String → FetchResult) (st : CrawlState)
    (c : String) (h : disjointKeys st.index st.queue = true) :
    disjointKeys (processCandidate fetch st c).index
      (processCandidate fetch st c).queue = true := by
  rw [disjointKeys_eq_true_iff] at h ⊢
  intro k hk
  unfold processCandidate at hk ⊢
  by_cases hi : dmem st.index c
  · simp only [hi, if_true] at hk ⊢
    rw [dmem_derase]
    simp [h k hk]
  · cases hf : fetch c with
    | failure =>
      simp only [hi, Bool.false_eq_true, if_false, hf] at hk ⊢
      rw [dmem_derase]
      simp [h k hk]
    | success title desc links =>
      simp only [hi, Bool.false_eq_true, if_false, hf] at hk ⊢
      rw [mergeLinks_index_mem, dmem_dset] at hk
      rw [dmem_derase]
      by_cases hkc : k = c
      · simp [hkc]
      · simp only [hkc, decide_False, Bool.not_false, Bool.true_and]
        simp only [hkc, decide_False, Bool.false_or] at hk
        by_cases hq2 : dmem (mergeLinks c
            (dset st.index c ⟨c, strTake title 100, strTake desc 250,
              (dget st.queue c).getD 0⟩, st.queue) links).2 k = true
        · rcases mergeLinks_queue_mem_of _ _ _ _ hq2 with hqk | ⟨hik, _⟩
          · rw [h k hk] at hqk
            exact absurd hqk (by simp)
          · rw [dmem_dset] at hik
            simp [hk] at hik
        · simpa using hq2

theorem authOf_mk (idx : IndexMap) (q : QueueMap) (cr : Nat) (fl : List String)
    (k : String) :
    authOf ⟨idx, q, cr, fl⟩ k =
      match dget idx k with
      | some e => some e.links
      | none => dget q k := rfl

theorem processCandidate_auth_mono (fetch : String → FetchResult) (st : CrawlState)
    (c k : String) (n m : Nat) (hn : authOf st k = some n)
    (hm : authOf (processCandidate fetch st c) k = some m) : n ≤ m := by
  unfold authOf at hn
  unfold processCandidate at hm
  by_cases hi : dmem st.index c
  · simp only [hi, if_true] at hm
    rw [authOf_mk] at hm
    cases hg : dget st.index k with
    | some e =>
      simp only [hg, Option.some.injEq] at hn hm
      omega
    | none =>
      simp only [hg] at hn hm
      rw [dget_derase] at hm
      by_cases hkc : k = c
      · rw [if_pos hkc] at hm
        exact Option.noConfusion hm
      · rw [if_neg hkc, hn] at hm
        simp only [Option.some.injEq] at hm
        omega
  · cases hf : fetch c with
    | failure =>
      simp only [hi, Bool.false_eq_true, if_false, hf] at hm
      rw [authOf_mk] at hm
      cases hg : dget st.index k with
      | some e =>
        simp only [hg, Option.some.injEq] at hn hm
        omega
      | none =>
        simp only [hg] at hn hm
        rw [dget_derase] at hm
        by_cases hkc : k = c
        · rw [if_pos hkc] at hm
          exact Option.noConfusion hm
        · rw [if_neg hkc, hn] at hm
          simp only [Option.some.injEq] at hm
          omega
    | success title desc links =>
      simp only [hi, Bool.false_eq_true, if_false, hf] at hm
      rw [authOf_mk] at hm
      cases hg : dget st.index k with
      | some e =>
        simp only [hg, Option.some.injEq] at hn
        have hkc : k ≠ c := by
          intro hkc
          subst hkc
          rw [dget_none_of (by simpa using hi)] at hg
          exact Option.noConfusion hg
        have h1 : dget (dset st.index c ⟨c, strTake title 100, strTake desc 250,
            (dget st.queue c).getD 0⟩) k = some e := by
          rw [dget_dset, if_neg hkc]
          exact hg
        obtain ⟨e', he', hle⟩ := mergeLinks_index_mono c links
          (dset st.index c ⟨c, strTake title 100, strTake desc 250,
            (dget st.queue c).getD 0⟩, st.queue) k e h1
        rw [he'] at hm
        simp only [Option.some.injEq] at hm
        omega
      | none =>
        simp only [hg] at hn
        by_cases hkc : k = c
        · subst hkc
          have h1 : dget (dset st.index k ⟨k, strTake title 100, strTake desc 250,
              (dget st.queue k).getD 0⟩) k = some ⟨k, strTake title 100,
              strTake desc 250, (dget st.queue k).getD 0⟩ := by
            rw [dget_dset, if_pos rfl]
          obtain ⟨e', he', hle⟩ := mergeLinks_index_mono k links
            (dset st.index k ⟨k, strTake title 100, strTake desc 250,
              (dget st.queue k).getD 0⟩, st.queue) k
            ⟨k, strTake title 100, strTake desc 250, (dget st.queue k).getD 0⟩ h1
          rw [he'] at hm
          simp only [Option.some.injEq] at hm
          simp only [hn, Option.getD_some] at hle
          omega
        · have h2 : dmem (mergeLinks c (dset st.index c ⟨c, strTake title 100,
              strTake desc 250, (dget st.queue c).getD 0⟩, st.queue) links).1 k
              = false := by
            rw [mergeLinks_index_mem, dmem_dset]
            simp [hkc, dmem, hg]
          simp only [dget_none_of h2] at hm
          rw [dget_derase, if_neg hkc] at hm
          obtain ⟨m', hm', hle⟩ := mergeLinks_queue_mono c links
            (dset st.index c ⟨c, strTake title 100, strTake desc 250,
              (dget st.queue c).getD 0⟩, st.queue) k n hn
          rw [hm'] at hm
          injection hm with hm
          omega

/-! ## Crawl-loop lemmas -/

theorem countSuccesses_append_one (fetch : String → FetchResult) (l : List String)
    (c : String) :
    countSuccesses fetch (l ++ [c]) =
      countSuccesses fetch l + (if isSuccess (fetch c) then 1 else 0) := by
  unfold countSuccesses
  rw [List.filter_append]
  by_cases h : isSuccess (fetch c) <;> simp [h]

theorem crawlLoop_crawled_eq (fetch : String → FetchResult) (maxCrawls : Nat)
    (cands : List String) :
    ∀ st : CrawlState, st.crawled = countSuccesses fetch st.fetched →
      (crawlLoop fetch maxCrawls st cands).1.crawled =
        countSuccesses fetch (crawlLoop fetch maxCrawls st cands).1.fetched := by
  induction cands with
  | nil => intro st h; simpa [crawlLoop] using h
  | cons c rest ih =>
    intro st h
    simp only [crawlLoop]
    by_cases hb : maxCrawls ≤ st.crawled
    · rw [if_pos hb]; exact h
    · rw [if_neg hb]
      apply ih
      rcases processCandidate_budget fetch st c with ⟨_, hcr, hft⟩ | ⟨_, hft, hcr⟩
      · rw [hcr, hft, h]
      · rw [hcr, hft, countSuccesses_append_one, h]

theorem crawlLoop_crawled_le (fetch : String → FetchResult) (maxCrawls : Nat)
    (cands : List String) :
    ∀ st : CrawlState, st.crawled ≤ maxCrawls →
      (crawlLoop fetch maxCrawls st cands).1.crawled ≤ maxCrawls := by
  induction cands with
  | nil => intro st h; simpa [crawlLoop] using h
  | cons c rest ih =>
    intro st h
    simp only [crawlLoop]
    by_cases hb : maxCrawls ≤ st.crawled
    · rw [if_pos hb]; exact h
    · rw [if_neg hb]
      apply ih
      rcases processCandidate_budget fetch st c with ⟨_, hcr, _⟩ | ⟨_, _, hcr⟩
      · rw [hcr]; omega
      · rw [hcr]
        by_cases hs : isSuccess (fetch c) <;> simp [hs] <;> omega

theorem crawlLoop_stops (fetch : String → FetchResult) (maxCrawls : Nat)
    (cands : List String) (st : CrawlState) :
    (crawlLoop fetch maxCrawls st cands).2 = [] ∨
      maxCrawls ≤ (crawlLoop fetch maxCrawls st cands).1.crawled := by
  induction cands generalizing st with
  | nil => exact Or.inl rfl
  | cons c rest ih =>
    simp only [crawlLoop]
    by_cases hb : maxCrawls ≤ st.crawled
    · rw [if_pos hb]; exact Or.inr hb
    · rw [if_neg hb]; exact ih _

theorem crawlLoop_fetched_mem (fetch : String → FetchResult) (maxCrawls : Nat)
    (cands : List String) (k : String) :
    ∀ st : CrawlState, k ∈ (crawlLoop fetch maxCrawls st cands).1.fetched →
      k ∈ st.fetched ∨ k ∈ cands := by
  induction cands with
  | nil => intro st h; exact Or.inl (by simpa [crawlLoop] using h)
  | cons c rest ih =>
    intro st h
    simp only [crawlLoop] at h
    by_cases hb : maxCrawls ≤ st.crawled
    · rw [if_pos hb] at h; exact Or.inl h
    · rw [if_neg hb] at h
      rcases ih _ h with hst | hrest
      · rcases processCandidate_budget fetch st c with ⟨_, _, hft⟩ | ⟨_, hft, _⟩
        · rw [hft] at hst; exact Or.inl hst
        · rw [hft] at hst
          rcases List.mem_append.mp hst with h1 | h2
          · exact Or.inl h1
          · simp only [List.mem_singleton] at h2
            exact Or.inr (by rw [h2]; exact List.mem_cons_self c rest)
      · exact Or.inr (List.mem_cons_of_mem c hrest)

theorem crawlLoop_index_stable (fetch : String → FetchResult) (maxCrawls : Nat)
    (cands : List String) (k : String) :
    ∀ st : CrawlState, k ∉ cands →
      dmem (crawlLoop fetch maxCrawls st cands).1.index k = dmem st.index k := by
  induction cands with
  | nil => intro st _; rfl
  | cons c rest ih =>
    intro st hk
    simp only [crawlLoop]
    by_cases hb : maxCrawls ≤ st.crawled
    · rw [if_pos hb]
    · rw [if_neg hb]
      have hkc : k ≠ c := fun h => hk (h ▸ List.mem_cons_self c rest)
      have hkr : k ∉ rest := fun h => hk (List.mem_cons_of_mem c h)
      rw [ih _ hkr, processCandidate_index_mem_ne fetch st hkc]

theorem crawlLoop_queue_persist (fetch : String → FetchResult) (maxCrawls : Nat)
    (cands : List String) (k : String) :
    ∀ st : CrawlState, k ∉ cands → dmem st.queue k = true →
      dmem (crawlLoop fetch maxCrawls st cands).1.queue k = true := by
  induction cands with
  | nil => intro st _ hq; simpa [crawlLoop] using hq
  | cons c rest ih =>
    intro st hk hq
    simp only [crawlLoop]
    by_cases hb : maxCrawls ≤ st.crawled
    · rw [if_pos hb]; exact hq
    · rw [if_neg hb]
      have hkc : k ≠ c := fun h => hk (h ▸ List.mem_cons_self c rest)
      have hkr : k ∉ rest := fun h => hk (List.mem_cons_of_mem c h)
      exact ih _ hkr (processCandidate_queue_persist fetch st hkc hq)

theorem crawlLoop_disjoint (fetch : String → FetchResult) (maxCrawls : Nat)
    (cands : List String) :
    ∀ st : CrawlState, disjointKeys st.index st.queue = true →
      disjointKeys (crawlLoop fetch maxCrawls st cands).1.index
        (crawlLoop fetch maxCrawls st cands).1.queue = true := by
  induction cands with
  | nil => intro st h; simpa [crawlLoop] using h
  | cons c rest ih =>
    intro st h
    simp only [crawlLoop]
    by_cases hb : maxCrawls ≤ st.crawled
    · rw [if_pos hb]; exact h
    · rw [if_neg hb]
      exact ih _ (processCandidate_disjoint fetch st c h)

/-! ## Persistence lemmas -/

theorem dmem_append {α : Type} (d₁ d₂ : Dict α) (k : String) :
    dmem (d₁ ++ d₂) k = (dmem d₁ k || dmem d₂ k) := by
  unfold dmem
  rw [dget_append]
  cases hg : dget d₁ k with
  | none => simp [dmem, hg]
  | some v => simp [dmem, hg]

theorem loadIndexMap_aux (l : List IndexEntry) :
    ∀ acc : IndexMap,
      (∀ e ∈ l, normalize_domain e.url = some e.url) →
      (∀ e ∈ l, dmem acc e.url = false) →
      (l.map IndexEntry.url).Nodup →
      l.foldl
        (fun m it =>
          match normalize_domain it.url with
          | some k => dset m k it
          | none => m) acc = acc ++ l.map (fun e => (e.url, e)) := by
  induction l with
  | nil => intro acc _ _ _; simp
  | cons e t ih =>
    intro acc hnorm hacc hnd
    simp only [List.foldl_cons, hnorm e (List.mem_cons_self e t)]
    have hmem : dmem acc e.url = false := hacc e (List.mem_cons_self e t)
    have hset : dset acc e.url e = acc ++ [(e.url, e)] := by
      unfold dset
      simp [hmem]
    rw [hset]
    simp only [List.map_cons, List.nodup_cons] at hnd
    rw [ih (acc ++ [(e.url, e)]) (fun x hx => hnorm x (List.mem_cons_of_mem e hx))
      ?_ hnd.2]
    · simp
    · intro x hx
      rw [dmem_append]
      have h1 : dmem acc x.url = false := hacc x (List.mem_cons_of_mem e hx)
      have h2 : e.url ≠ x.url := by
        intro hcontra
        exact hnd.1 (hcontra ▸ List.mem_map.mpr ⟨x, hx, rfl⟩)
      have h3 : dmem [(e.url, e)] x.url = false := by
        simp [dmem, dget, h2]
      rw [h1, h3]
      rfl

theorem map_url_pairs (l : List IndexEntry) (m : IndexMap) (hml : m.map Prod.snd = l) :
    (∀ p ∈ m, p.2.url = p.1) → l.map (fun e => (e.url, e)) = m := by
  subst hml
  induction m with
  | nil => intro _; rfl
  | cons p t ih =>
    intro hl
    simp only [List.map_cons]
    rw [hl p (List.mem_cons_self p t), ih (fun x hx => hl x (List.mem_cons_of_mem p hx))]

theorem crawl_eq_crawlLoop (fetch : String → FetchResult) (maxCrawls : Nat)
    (index0 : IndexMap) (queue0 : QueueMap) :
    crawl fetch maxCrawls index0 queue0 =
      crawlLoop fetch maxCrawls ⟨index0, initQueue index0 queue0, 0, []⟩
        ((sortQueue (initQueue index0 queue0)).map Prod.fst) := rfl

/-! ## Normalizer lemmas -/

theorem takeWhile_append_of_all {α : Type} (p : α → Bool) (l₁ l₂ : List α)
    (h : ∀ a ∈ l₁, p a = true) :
    (l₁ ++ l₂).takeWhile p = l₁ ++ l₂.takeWhile p := by
  induction l₁ with
  | nil => simp
  | cons a t ih =>
    have ha : p a = true := h a (List.mem_cons_self a t)
    simp [List.takeWhile_cons, ha,
      ih (fun x hx => h x (List.mem_cons_of_mem a hx))]

theorem takeWhile_cons_false {α : Type} (p : α → Bool) (a : α) (l : List α)
    (h : p a = false) : (a :: l).takeWhile p = [] := by
  simp [List.takeWhile_cons, h]

theorem afterScheme_eq (c : Char) (cs : List Char) (t : List Char)
    (hall : ∀ a ∈ c :: cs, isSchemeChar a = true) (hc : c.isAlpha = true) :
    afterScheme ((c :: cs) ++ ':' :: t) = t := by
  unfold afterScheme
  have h1 : ((c :: cs) ++ ':' :: t).takeWhile isSchemeChar = c :: cs := by
    rw [takeWhile_append_of_all _ _ _ hall,
      takeWhile_cons_false _ _ _ (by decide)]
    simp
  simp only [h1, List.drop_left]
  simp [hc]

theorem urlNetloc_mkUrl (scheme : String) (www : Bool) (host : String)
    (rest : String) (hs : schemeOk scheme = true) (hh : hostOk host = true)
    (hr : restOk rest = true) :
    (urlNetloc (mkUrl scheme www host rest)).data =
      (if www then ('w' :: 'w' :: 'w' :: '.' :: []) else []) ++ host.data := by
  obtain ⟨c, cs, hsd⟩ : ∃ c cs, scheme.data = c :: cs := by
    cases h : scheme.data with
    | nil =>
      unfold schemeOk at hs
      rw [h] at hs
      simp at hs
    | cons c cs => exact ⟨c, cs, rfl⟩
  have hca : c.isAlpha = true ∧ ∀ a ∈ c :: cs, isSchemeChar a = true := by
    unfold schemeOk at hs
    rw [hsd] at hs
    simpa [List.all_eq_true] using hs
  have hW : ∀ a ∈ (if www then ('w' :: 'w' :: 'w' :: '.' :: []) else []) ++
      host.data, isNetlocChar a = true := by
    intro a ha
    rcases List.mem_append.mp ha with h | h
    · cases www with
      | false => simp at h
      | true =>
        simp only [if_true, List.mem_cons, List.not_mem_nil, or_false] at h
        rcases h with rfl | rfl | rfl | rfl <;> decide
    · unfold hostOk at hh
      exact List.all_eq_true.mp hh a h
  have hA : (mkUrl scheme www host rest).data =
      (c :: cs) ++ ':' :: ('/' :: '/' ::
        ((if www then ('w' :: 'w' :: 'w' :: '.' :: []) else []) ++
          (host.data ++ rest.data))) := by
    show scheme.data ++ (':' :: '/' :: '/' :: []) ++ _ ++ host.data ++ rest.data = _
    rw [hsd]
    simp [List.append_assoc]
  unfold urlNetloc netlocChars
  rw [hA, afterScheme_eq c cs _ hca.2 hca.1]
  show ((if www then ('w' :: 'w' :: 'w' :: '.' :: []) else []) ++
      (host.data ++ rest.data)).takeWhile isNetlocChar = _
  rw [← List.append_assoc, takeWhile_append_of_all _ _ _ hW]
  unfold restOk at hr
  cases hrd : rest.data with
  | nil => simp [hrd]
  | cons c0 t0 =>
    rw [hrd] at hr
    have hcf : isNetlocChar c0 = false := by simpa using hr
    rw [takeWhile_cons_false _ _ _ hcf]
    simp

theorem normalizeNetloc_no_www (host : String)
    (hw : strStartsWith (strLower host) "www." = false) :
    normalizeNetloc host =
      if (!strContains (strLower host) '.') || decide (strLen (strLower host) < 4)
      then none else some ("https://" ++ strLower host ++ "/") := by
  unfold normalizeNetloc
  by_cases hD : strLower host = ""
  · rw [if_pos hD, hD]
    rfl
  · rw [if_neg hD]
    simp only [hw, Bool.false_eq_true, if_false]

theorem normalizeNetloc_www (host : String)
    (hw : strStartsWith (strLower host) "www." = false) :
    normalizeNetloc ⟨'w' :: 'w' :: 'w' :: '.' :: host.data⟩ =
      normalizeNetloc host := by
  rw [normalizeNetloc_no_www host hw]
  unfold normalizeNetloc
  have h1 : strLower ⟨'w' :: 'w' :: 'w' :: '.' :: host.data⟩ =
      ⟨'w' :: 'w' :: 'w' :: '.' :: (strLower host).data⟩ := rfl
  have h2 : strLower ⟨'w' :: 'w' :: 'w' :: '.' :: host.data⟩ ≠ "" := by
    rw [h1]
    intro hcontra
    exact List.cons_ne_nil _ _ (congrArg String.data hcontra)
  rw [if_neg h2]
  have h4 : strStartsWith (strLower ⟨'w' :: 'w' :: 'w' :: '.' :: host.data⟩)
      "www." = true := rfl
  simp only [h4, if_true]
  have h5 : strDrop (strLower ⟨'w' :: 'w' :: 'w' :: '.' :: host.data⟩) 4 =
      strLower host := rfl
  rw [h5]

theorem urlNetloc_mkUrl_false (scheme : String) (host : String) (rest : String)
    (hs : schemeOk scheme = true) (hh : hostOk host = true)
    (hr : restOk rest = true) :
    urlNetloc (mkUrl scheme false host rest) = host := by
  have hd : (urlNetloc (mkUrl scheme false host rest)).data = host.data := by
    simpa using urlNetloc_mkUrl scheme false host rest hs hh hr
  calc urlNetloc (mkUrl scheme false host rest)
      = ⟨(urlNetloc (mkUrl scheme false host rest)).data⟩ := rfl
    _ = ⟨host.data⟩ := by rw [hd]
    _ = host := rfl

theorem urlNetloc_mkUrl_true (scheme : String) (host : String) (rest : String)
    (hs : schemeOk scheme = true) (hh : hostOk host = true)
    (hr : restOk rest = true) :
    urlNetloc (mkUrl scheme true host rest) =
      ⟨'w' :: 'w' :: 'w' :: '.' :: host.data⟩ := by
  have hd : (urlNetloc (mkUrl scheme true host rest)).data =
      'w' :: 'w' :: 'w' :: '.' :: host.data := by
    simpa using urlNetloc_mkUrl scheme true host rest hs hh hr
  calc urlNetloc (mkUrl scheme true host rest)
      = ⟨(urlNetloc (mkUrl scheme true host rest)).data⟩ := rfl
    _ = ⟨'w' :: 'w' :: 'w' :: '.' :: host.data⟩ := by rw [hd]

theorem normalize_mkUrl (scheme : String) (www : Bool) (host : String)
    (rest : String) (hs : schemeOk scheme = true) (hh : hostOk host = true)
    (hr : restOk rest = true)
    (hw : strStartsWith (strLower host) "www." = false) :
    normalize_domain (mkUrl scheme www host rest) = normalizeNetloc host := by
  unfold normalize_domain
  cases www with
  | false => rw [urlNetloc_mkUrl_false scheme host rest hs hh hr]
  | true =>
    rw [urlNetloc_mkUrl_true scheme host rest hs hh hr,
      normalizeNetloc_www host hw]

/-! ## Claim theorems -/

/-- C1, counterexample: with `maxCrawls = 1` and a frontier of two
candidates whose higher-priority one fails to fetch, the run performs TWO
fetch attempts — a failed attempt does not consume budget (only line 144,
on the success path, increments `crawled_this_run`), contradicting the
claim that attempts, not only successes, count toward `maxCrawls`. -/
theorem budget_attempts_counterexample :
    (crawl
      (fun c => if c = "https://ccc.com/" then
        FetchResult.success "t" "d" ["https://fff.com/"] else FetchResult.failure)
      1 [] [("https://fff.com/", 10), ("https://ccc.com/", 5)]).1.fetched =
      ["https://fff.com/", "https://ccc.com/"] := by decide

/-- C1, amended: the crawl loop terminates exactly when `maxCrawls`
SUCCESSFUL fetches have occurred or the sorted candidate list is
exhausted; the budget counter equals the number of successful attempts in
the fetch trace (failed attempts do not consume budget), never exceeds
`maxCrawls`, and when the loop breaks with candidates left the counter
has reached exactly `maxCrawls`. -/
theorem crawl_budget_counts_successes (fetch : String → FetchResult)
    (maxCrawls : Nat) (index0 : IndexMap) (queue0 : QueueMap) :
    (crawl fetch maxCrawls index0 queue0).1.crawled =
      countSuccesses fetch (crawl fetch maxCrawls index0 queue0).1.fetched ∧
    (crawl fetch maxCrawls index0 queue0).1.crawled ≤ maxCrawls ∧
    ((crawl fetch maxCrawls index0 queue0).2 = [] ∨
      (crawl fetch maxCrawls index0 queue0).1.crawled = maxCrawls) := by
  rw [crawl_eq_crawlLoop]
  refine ⟨?_, ?_, ?_⟩
  · exact crawlLoop_crawled_eq fetch maxCrawls _ _ rfl
  · exact crawlLoop_crawled_le fetch maxCrawls _ _ (Nat.zero_le _)
  · rcases crawlLoop_stops fetch maxCrawls _ _ with h | h
    · exact Or.inl h
    · exact Or.inr
        (le_antisymm (crawlLoop_crawled_le fetch maxCrawls _ _ (Nat.zero_le _)) h)

/-- C2, counterexample: a self-loop link DOES increment the candidate's
own authority.  The candidate is queued at authority 5, its page holds one
link back to its own domain, and it ends up indexed with authority 6: the
candidate is committed to the Index at line 116 before the link merge, so
the self target hits the `target_norm in index_map` branch at line 135. -/
theorem self_loop_counterexample :
    (processCandidate (fun _ => FetchResult.success "t" "d" ["https://foo.com/self"])
      ⟨[], [("https://foo.com/", 5)], 0, []⟩ "https://foo.com/").index =
      [("https://foo.com/", ⟨"https://foo.com/", "t", "d", 6⟩)] := by decide

/-- C2, amended: during the outbound-link merge after a successful fetch,
a link normalizing to the candidate's own DomainKey never creates any
Index or Frontier entry and leaves the Frontier untouched, but it DOES
increment the candidate's own Index authority by 1 (the candidate is
already in the Index when its links are merged). -/
theorem merge_self_loop (self : String) (idx : IndexMap) (q : QueueMap)
    (u : String) (hn : normalize_domain u = some self)
    (hm : dmem idx self = true) :
    (mergeLink self idx q u).2 = q ∧
    (∀ k, dmem (mergeLink self idx q u).1 k = dmem idx k) ∧
    dget (mergeLink self idx q u).1 self =
      (dget idx self).map (fun e => { e with links := e.links + 1 }) := by
  have hml : mergeLink self idx q u =
      (dmodify idx self (fun e => { e with links := e.links + 1 }), q) := by
    unfold mergeLink
    simp only [hn, hm, if_true]
  rw [hml]
  refine ⟨rfl, ?_, ?_⟩
  · intro k
    exact dmem_dmodify idx self (fun e => { e with links := e.links + 1 }) k
  · rw [dget_dmodify, if_pos rfl]

/-- Witness for `merge_self_loop` at a concrete self-loop link. -/
theorem merge_self_loop_witness :
    (mergeLink "https://foo.com/"
      [("https://foo.com/", ⟨"https://foo.com/", "t", "d", 5⟩)] []
      "https://foo.com/x").2 = [] ∧
    (∀ k, dmem (mergeLink "https://foo.com/"
      [("https://foo.com/", ⟨"https://foo.com/", "t", "d", 5⟩)] []
      "https://foo.com/x").1 k =
      dmem ([("https://foo.com/", ⟨"https://foo.com/", "t", "d", 5⟩)] : IndexMap) k) ∧
    dget (mergeLink "https://foo.com/"
      [("https://foo.com/", ⟨"https://foo.com/", "t", "d", 5⟩)] []
      "https://foo.com/x").1 "https://foo.com/" =
      (dget ([("https://foo.com/", ⟨"https://foo.com/", "t", "d", 5⟩)] : IndexMap)
        "https://foo.com/").map (fun e => { e with links := e.links + 1 }) :=
  merge_self_loop _ _ _ _ (by decide) (by decide)

/-- C3: for a successfully normalized, non-self link the merge is the
three-way rule of lines 134–141 (indexed target: authority + 1; queued
target: authority + 1; otherwise: new Frontier entry at authority 1), and
in the spec's scenario — candidate C succeeds with two links to indexed
domain D (authority 2) and one link to new domain E — the merge leaves
`Index[D].authority = 4` and `Frontier[E] = 1`: repeated links each count. -/
theorem merge_link_tracking :
    (∀ (self : String) (idx : IndexMap) (q : QueueMap) (u t : String),
      normalize_domain u = some t → t ≠ self →
      mergeLink self idx q u =
        if dmem idx t then
          (dmodify idx t (fun e => { e with links := e.links + 1 }), q)
        else if dmem q t then (idx, dmodify q t (· + 1))
        else (idx, dset q t 1)) ∧
    dget (processCandidate
      (fun _ => FetchResult.success "tc" "dc"
        ["https://ddd.com/x", "https://ddd.com/y", "https://eee.com/"])
      ⟨[("https://ddd.com/", ⟨"https://ddd.com/", "t", "d", 2⟩)],
        [("https://ccc.com/", 1)], 0, []⟩ "https://ccc.com/").index
      "https://ddd.com/" = some ⟨"https://ddd.com/", "t", "d", 4⟩ ∧
    dget (processCandidate
      (fun _ => FetchResult.success "tc" "dc"
        ["https://ddd.com/x", "https://ddd.com/y", "https://eee.com/"])
      ⟨[("https://ddd.com/", ⟨"https://ddd.com/", "t", "d", 2⟩)],
        [("https://ccc.com/", 1)], 0, []⟩ "https://ccc.com/").queue
      "https://eee.com/" = some 1 := by
  refine ⟨?_, by decide, by decide⟩
  intro self idx q u t hn hts
  unfold mergeLink
  simp only [hn]
  by_cases h1 : dmem idx t
  · simp [h1]
  · by_cases h2 : dmem q t
    · simp [h1, h2]
    · simp [h1, h2, hts]

/-- Witness for `merge_link_tracking` at a concrete non-self link into an
occupied Index. -/
theorem merge_link_tracking_witness :
    mergeLink "https://ccc.com/"
      [("https://ddd.com/", ⟨"https://ddd.com/", "t", "d", 2⟩)] []
      "https://ddd.com/x" =
      if dmem ([("https://ddd.com/", ⟨"https://ddd.com/", "t", "d", 2⟩)] : IndexMap)
          "https://ddd.com/" then
        (dmodify ([("https://ddd.com/", ⟨"https://ddd.com/", "t", "d", 2⟩)] : IndexMap)
          "https://ddd.com/" (fun e => { e with links := e.links + 1 }), [])
      else if dmem ([] : QueueMap) "https://ddd.com/" then
        ([("https://ddd.com/", ⟨"https://ddd.com/", "t", "d", 2⟩)],
          dmodify [] "https://ddd.com/" (· + 1))
      else ([("https://ddd.com/", ⟨"https://ddd.com/", "t", "d", 2⟩)],
        dset [] "https://ddd.com/" 1) :=
  merge_link_tracking.1 "https://ccc.com/"
    [("https://ddd.com/", ⟨"https://ddd.com/", "t", "d", 2⟩)] []
    "https://ddd.com/x" "https://ddd.com/" (by decide) (by decide)

/-- C4: mutual exclusion of Index and Frontier — every per-candidate merge
step preserves key-disjointness of the two collections, and a whole run
started from disjoint collections hands disjoint collections to the
persistence step. -/
theorem index_frontier_mutual_exclusion :
    (∀ (fetch : String → FetchResult) (st : CrawlState) (c : String),
      disjointKeys st.index st.queue = true →
      disjointKeys (processCandidate fetch st c).index
        (processCandidate fetch st c).queue = true) ∧
    (∀ (fetch : String → FetchResult) (maxCrawls : Nat) (index0 : IndexMap)
      (queue0 : QueueMap), disjointKeys index0 queue0 = true →
      disjointKeys (crawl fetch maxCrawls index0 queue0).1.index
        (crawl fetch maxCrawls index0 queue0).1.queue = true) := by
  refine ⟨processCandidate_disjoint, ?_⟩
  intro fetch maxCrawls index0 queue0 h
  rw [crawl_eq_crawlLoop]
  apply crawlLoop_disjoint
  show disjointKeys index0 (initQueue index0 queue0) = true
  unfold initQueue
  by_cases he : (queue0.isEmpty && index0.isEmpty) = true
  · rw [if_pos he]
    cases index0 with
    | nil => rfl
    | cons p t => simp at he
  · rw [if_neg he]
    exact h

/-- Witness for `index_frontier_mutual_exclusion` on a concrete disjoint
pair of collections. -/
theorem index_frontier_mutual_exclusion_witness :
    disjointKeys [("https://aaa.com/", ⟨"https://aaa.com/", "t", "d", 1⟩)]
      [("https://bbb.com/", 2)] = true ∧
    disjointKeys (crawl (fun _ => FetchResult.failure) 1
        [("https://aaa.com/", ⟨"https://aaa.com/", "t", "d", 1⟩)]
        [("https://bbb.com/", 2)]).1.index
      (crawl (fun _ => FetchResult.failure) 1
        [("https://aaa.com/", ⟨"https://aaa.com/", "t", "d", 1⟩)]
        [("https://bbb.com/", 2)]).1.queue = true :=
  ⟨by decide, index_frontier_mutual_exclusion.2 _ _ _ _ (by decide)⟩

/-- C5, counterexample: the authority recorded for a DomainKey CAN
decrease within a run.  Domain F starts queued at authority 10, its fetch
fails and it is deleted; a later successful candidate links to F, which is
re-inserted into the Frontier at authority 1 < 10. -/
theorem authority_decrease_counterexample :
    authOf ⟨[], [("https://fff.com/", 10), ("https://ccc.com/", 5)], 0, []⟩
      "https://fff.com/" = some 10 ∧
    authOf (crawl
      (fun c => if c = "https://ccc.com/" then
        FetchResult.success "t" "d" ["https://fff.com/"] else FetchResult.failure)
      200 [] [("https://fff.com/", 10), ("https://ccc.com/", 5)]).1
      "https://fff.com/" = some 1 := ⟨by decide, by decide⟩

/-- C5, amended: across any single per-candidate processing step, the
authority recorded for a key that is present both before and after the
step never decreases — merges only preserve or increment it, and a
candidate migrating from Frontier to Index keeps at least its queued
authority.  (A failed candidate's entry is deleted outright; if the
domain is rediscovered later in the same run it restarts at authority 1,
which may be lower than the value it had before deletion.) -/
theorem authority_merge_step_mono (fetch : String → FetchResult) (st : CrawlState)
    (c k : String) (n m : Nat) (hn : authOf st k = some n)
    (hm : authOf (processCandidate fetch st c) k = some m) : n ≤ m :=
  processCandidate_auth_mono fetch st c k n m hn hm

/-- Witness for `authority_merge_step_mono` on a concrete step. -/
theorem authority_merge_step_mono_witness :
    authOf ⟨[], [("https://aaa.com/", 3)], 0, []⟩ "https://aaa.com/" = some 3 ∧
    authOf (processCandidate (fun _ => FetchResult.failure)
      ⟨[], [("https://aaa.com/", 3)], 0, []⟩ "https://bbb.com/")
      "https://aaa.com/" = some 3 ∧
    (3 : Nat) ≤ 3 :=
  ⟨by decide, by decide,
    authority_merge_step_mono (fun _ => FetchResult.failure)
      ⟨[], [("https://aaa.com/", 3)], 0, []⟩ "https://bbb.com/" "https://aaa.com/"
      3 3 (by decide) (by decide)⟩

/-- C6: a candidate whose fetch fails (network error, non-200, parse
failure, timeout) ends the step absent from both collections — removed
from the Frontier, never added to the Index — and the loop continues with
the next candidate instead of aborting. -/
theorem failed_fetch_dropped (fetch : String → FetchResult) (st : CrawlState)
    (c : String) (rest : List String) (maxCrawls : Nat)
    (hf : fetch c = FetchResult.failure) (hi : dmem st.index c = false) :
    dmem (processCandidate fetch st c).index c = false ∧
    dmem (processCandidate fetch st c).queue c = false ∧
    (st.crawled < maxCrawls →
      crawlLoop fetch maxCrawls st (c :: rest) =
        crawlLoop fetch maxCrawls (processCandidate fetch st c) rest) := by
  refine ⟨?_, ?_, ?_⟩
  · unfold processCandidate
    simp [hi, hf]
  · unfold processCandidate
    simp [hi, hf, dmem_derase]
  · intro hb
    simp only [crawlLoop]
    rw [if_neg (by omega)]

/-- Witness for `failed_fetch_dropped` on a concrete failing candidate. -/
theorem failed_fetch_dropped_witness :
    dmem (processCandidate (fun _ => FetchResult.failure)
      ⟨[], [("https://aaa.com/", 2)], 0, []⟩ "https://aaa.com/").index
      "https://aaa.com/" = false ∧
    dmem (processCandidate (fun _ => FetchResult.failure)
      ⟨[], [("https://aaa.com/", 2)], 0, []⟩ "https://aaa.com/").queue
      "https://aaa.com/" = false ∧
    ((0 : Nat) < 5 →
      crawlLoop (fun _ => FetchResult.failure) 5
        ⟨[], [("https://aaa.com/", 2)], 0, []⟩ ["https://aaa.com/"] =
      crawlLoop (fun _ => FetchResult.failure) 5
        (processCandidate (fun _ => FetchResult.failure)
          ⟨[], [("https://aaa.com/", 2)], 0, []⟩ "https://aaa.com/") []) :=
  failed_fetch_dropped _ _ _ [] 5 (by decide) (by decide)

/-- C7: seeding happens exactly when both collections are empty at run
start — the Frontier then holds precisely the three configured seed
domains, normalized, each at authority 1 — and it happens before the loop
runs (the loop starts from the seeded queue with an empty fetch trace);
when either collection is non-empty the queue is left untouched. -/
theorem seeding_exactly_when_empty :
    initQueue [] [] =
      [("https://wikipedia.org/", 1), ("https://github.com/", 1),
        ("https://google.com/", 1)] ∧
    (∀ (index0 : IndexMap) (queue0 : QueueMap),
      (queue0.isEmpty && index0.isEmpty) = false →
      initQueue index0 queue0 = queue0) ∧
    (∀ (fetch : String → FetchResult) (maxCrawls : Nat) (index0 : IndexMap)
      (queue0 : QueueMap),
      crawl fetch maxCrawls index0 queue0 =
        crawlLoop fetch maxCrawls ⟨index0, initQueue index0 queue0, 0, []⟩
          ((sortQueue (initQueue index0 queue0)).map Prod.fst)) := by
  refine ⟨by decide, ?_, ?_⟩
  · intro index0 queue0 h
    simp [initQueue, h]
  · intro fetch maxCrawls index0 queue0
    rfl

/-- Witness for `seeding_exactly_when_empty`: a non-empty Index suppresses
seeding even when the queue is empty. -/
theorem seeding_exactly_when_empty_witness :
    initQueue [("https://aaa.com/", ⟨"https://aaa.com/", "t", "d", 1⟩)] [] = [] :=
  seeding_exactly_when_empty.2.1 _ _ (by decide)

/-- C9: persisting the Index (the value list of the map) and loading it
back (re-keying each record by `normalize_domain(url)`) reproduces the
same mapping, whenever every entry's `url` is a valid DomainKey (a fixed
point of normalization that equals its key) and keys are unique — which
is exactly the shape the crawler itself persists. -/
theorem index_persist_roundtrip (m : IndexMap)
    (hwf : ∀ p ∈ m, p.2.url = p.1 ∧ normalize_domain p.1 = some p.1)
    (hnd : (m.map Prod.fst).Nodup) :
    loadIndexMap (persistIndex m) = m := by
  unfold loadIndexMap persistIndex
  have hurl : (m.map Prod.snd).map IndexEntry.url = m.map Prod.fst := by
    rw [List.map_map]
    exact List.map_congr_left (fun p hp => (hwf p hp).1)
  have h1 : ∀ e ∈ m.map Prod.snd, normalize_domain e.url = some e.url := by
    intro e he
    rcases List.mem_map.mp he with ⟨p, hp, hpe⟩
    rw [← hpe, (hwf p hp).1]
    exact (hwf p hp).2
  have h2 : ∀ e ∈ m.map Prod.snd, dmem ([] : IndexMap) e.url = false :=
    fun e _ => rfl
  have h3 : ((m.map Prod.snd).map IndexEntry.url).Nodup := by
    rw [hurl]
    exact hnd
  rw [loadIndexMap_aux (m.map Prod.snd) [] h1 h2 h3, List.nil_append]
  exact map_url_pairs _ m rfl (fun p hp => (hwf p hp).1)

/-- Witness for `index_persist_roundtrip` on a concrete two-entry Index. -/
theorem index_persist_roundtrip_witness :
    loadIndexMap (persistIndex
      [("https://aaa.com/", ⟨"https://aaa.com/", "tA", "dA", 3⟩),
        ("https://bbb.org/", ⟨"https://bbb.org/", "tB", "dB", 7⟩)]) =
      [("https://aaa.com/", ⟨"https://aaa.com/", "tA", "dA", 3⟩),
        ("https://bbb.org/", ⟨"https://bbb.org/", "tB", "dB", 7⟩)] :=
  index_persist_roundtrip _ (by decide) (by decide)

/-- C10: the crawl loop only ever fetches members of the pre-sorted
snapshot: a domain absent from the snapshot (in particular one first
discovered during the loop) is never fetched in that run, never enters
the Index, and once it is in the Frontier it is still there at run end;
at the `crawl` level, a key outside the initial (post-seeding) queue and
Index is never fetched and ends the run outside the Index. -/
theorem snapshot_discovery_deferral :
    (∀ (fetch : String → FetchResult) (maxCrawls : Nat) (cands : List String)
      (st : CrawlState) (k : String), k ∉ cands → dmem st.index k = false →
      k ∉ st.fetched →
      (k ∉ (crawlLoop fetch maxCrawls st cands).1.fetched ∧
        dmem (crawlLoop fetch maxCrawls st cands).1.index k = false ∧
        (dmem st.queue k = true →
          dmem (crawlLoop fetch maxCrawls st cands).1.queue k = true))) ∧
    (∀ (fetch : String → FetchResult) (maxCrawls : Nat) (index0 : IndexMap)
      (queue0 : QueueMap) (k : String),
      dmem (initQueue index0 queue0) k = false → dmem index0 k = false →
      k ∉ (crawl fetch maxCrawls index0 queue0).1.fetched ∧
      dmem (crawl fetch maxCrawls index0 queue0).1.index k = false) := by
  constructor
  · intro fetch maxCrawls cands st k hk hi hft
    refine ⟨?_, ?_, ?_⟩
    · intro hmem
      rcases crawlLoop_fetched_mem fetch maxCrawls cands k st hmem with h | h
      · exact hft h
      · exact hk h
    · rw [crawlLoop_index_stable fetch maxCrawls cands k st hk]
      exact hi
    · intro hq
      exact crawlLoop_queue_persist fetch maxCrawls cands k st hk hq
  · intro fetch maxCrawls index0 queue0 k hq hi
    have hk : k ∉ (sortQueue (initQueue index0 queue0)).map Prod.fst :=
      not_mem_sortQueue_keys hq
    rw [crawl_eq_crawlLoop]
    constructor
    · intro hmem
      rcases crawlLoop_fetched_mem fetch maxCrawls _ k _ hmem with h | h
      · simp at h
      · exact hk h
    · rw [crawlLoop_index_stable fetch maxCrawls _ k _ hk]
      exact hi

/-- Witness for `snapshot_discovery_deferral` at a concrete run and key
outside the initial queue. -/
theorem snapshot_discovery_deferral_witness :
    dmem (initQueue [] [("https://bbb.com/", 2)]) "https://zzz.com/" = false ∧
    dmem ([] : IndexMap) "https://zzz.com/" = false ∧
    ("https://zzz.com/" ∉ (crawl (fun _ => FetchResult.failure) 1 []
        [("https://bbb.com/", 2)]).1.fetched ∧
      dmem (crawl (fun _ => FetchResult.failure) 1 []
        [("https://bbb.com/", 2)]).1.index "https://zzz.com/" = false) :=
  ⟨by decide, by decide,
    snapshot_discovery_deferral.2 (fun _ => FetchResult.failure) 1 []
      [("https://bbb.com/", 2)] "https://zzz.com/" (by decide) (by decide)⟩

/-- C8, counterexample: when the shared host itself begins with `www.`,
normalization is NOT invariant under adding a leading `www.` label —
`normalize_domain` strips only one `www.` (line 23–24 of the source), so
`https://www.foo.com/` and `http://www.www.foo.com/a?b#c` (same host
`www.foo.com`, differing only in scheme, leading `www.`, path, query and
fragment) normalize to different DomainKeys. -/
theorem normalize_www_host_counterexample :
    normalize_domain (mkUrl "https" false "www.foo.com" "/") =
      some "https://foo.com/" ∧
    normalize_domain (mkUrl "http" true "www.foo.com" "/a?b#c") =
      some "https://www.foo.com/" ∧
    normalize_domain (mkUrl "https" false "www.foo.com" "/") ≠
      normalize_domain (mkUrl "http" true "www.foo.com" "/a?b#c") :=
  ⟨by decide, by decide, by decide⟩

/-- C8, amended: for all URLs sharing a host whose lowercase form does
not itself begin with `www.`, and differing only in scheme, leading
`www.` label, path, query, or fragment, `normalize_domain` yields the
same result; whenever that result is a DomainKey it is
`https://{lowercased host}/`, with the scheme discarded. -/
theorem normalize_host_invariance (scheme1 scheme2 : String) (www1 www2 : Bool)
    (host : String) (rest1 rest2 : String)
    (hs1 : schemeOk scheme1 = true) (hs2 : schemeOk scheme2 = true)
    (hh : hostOk host = true) (hr1 : restOk rest1 = true)
    (hr2 : restOk rest2 = true)
    (hw : strStartsWith (strLower host) "www." = false) :
    normalize_domain (mkUrl scheme1 www1 host rest1) =
      normalize_domain (mkUrl scheme2 www2 host rest2) ∧
    (∀ res, normalize_domain (mkUrl scheme1 www1 host rest1) = some res →
      res = "https://" ++ strLower host ++ "/") := by
  constructor
  · rw [normalize_mkUrl scheme1 www1 host rest1 hs1 hh hr1 hw,
      normalize_mkUrl scheme2 www2 host rest2 hs2 hh hr2 hw]
  · intro res hres
    rw [normalize_mkUrl scheme1 www1 host rest1 hs1 hh hr1 hw,
      normalizeNetloc_no_www host hw] at hres
    by_cases hc : ((!strContains (strLower host) '.') ||
        decide (strLen (strLower host) < 4)) = true
    · rw [if_pos hc] at hres
      exact Option.noConfusion hres
    · rw [if_neg hc] at hres
      injection hres with hres
      exact hres.symm

/-- Witness for `normalize_host_invariance` on a concrete host shared by
two URLs with different scheme, `www.` label, path, query and fragment. -/
theorem normalize_host_invariance_witness :
    (normalize_domain (mkUrl "https" false "foo.com" "/") =
      normalize_domain (mkUrl "http" true "foo.com" "/a?b#c")) ∧
    (∀ res, normalize_domain (mkUrl "https" false "foo.com" "/") = some res →
      res = "https://" ++ strLower "foo.com" ++ "/") :=
  normalize_host_invariance "https" "http" false true "foo.com" "/" "/a?b#c"
    (by decide) (by decide) (by decide) (by decide) (by decide) (by decide)

end Bluom
